import Mathlib

/-!
Verification of `ethcore/src/blockchain/generator/generator.rs` (parity-ethereum):
a composable generator of synthetic, internally-consistent chains of block-like
records used by tests.

The file `generator.rs` is the authority for `ChainGenerator` (its `Default`,
`prepare_block` and `Iterator::next`), for the `ChainIterator` extension trait
(`fork`, `with_bloom`, `with_transaction`, `complete`, `generate`) whose bodies
construct the decorator values, and for the tests.  The sibling modules it uses
(`block.rs`, `fork.rs`, `bloom.rs`, `transaction.rs`, `complete.rs`) are not part
of the sources under verification, so their behaviour is modelled from the
specification, as marked on each definition below.

Machine integers are modelled as `Nat` with an explicit modulus where the source
performs arithmetic on a fixed-width type: `BlockNumber` is `u64` and
`difficulty` is `U256`.
-/

/-- The modulus of Rust's `u64` (`BlockNumber`), 2^64. -/
def U64size : Nat := 2 ^ 64

/-- The modulus of `U256` and the value space of an `H256` hash, 2^256. -/
def U256size : Nat := 2 ^ 256

/-- Modelled from the spec: the block header subset the generator touches
(`block.rs` is not under verification).  `number` is an unsigned integer,
`difficulty` an unsigned 256-bit integer, `parent_hash` a 256-bit hash
(0 is the zero/default hash), and `bloom` an optional 2048-bit filter value,
present only when a Bloom decorator was applied. -/
structure Header where
  number : Nat
  difficulty : Nat
  parent_hash : Nat
  bloom : Option Nat
deriving Repr, DecidableEq

/-- Modelled from the spec: a block is a header plus a body holding an ordered
sequence of signed-transaction values (`block.rs` is not under verification).
Signed transactions are opaque values, modelled as `Nat`. -/
structure Block where
  header : Header
  transactions : List Nat
deriving Repr, DecidableEq

/-- Modelled from the spec: `Block::default()` — all fields at type-default:
unset (zero) parent hash, empty transactions, no bloom, zero number and
difficulty. -/
def Block.default : Block :=
  { header := { number := 0, difficulty := 0, parent_hash := 0, bloom := none }
    transactions := [] }

/-- The blockchain generator state (source: `struct ChainGenerator`): the next
block number (`BlockNumber`, i.e. `u64`) and the next block difficulty
(`U256`). -/
structure ChainGenerator where
  number : Nat
  difficulty : Nat
deriving Repr, DecidableEq

/-- Source `ChainGenerator::prepare_block`: a fresh default block with `number`
and `difficulty` set from the current state. -/
def ChainGenerator.prepare_block (g : ChainGenerator) : Block :=
  { Block.default with
      header := { Block.default.header with
                    number := g.number
                    difficulty := g.difficulty } }

/-- Source `<ChainGenerator as Default>::default`: `number = 0`,
`difficulty = 1000`. -/
def ChainGenerator.default : ChainGenerator :=
  { number := 0, difficulty := 1000 }

/-- Source `<ChainGenerator as Iterator>::next`: prepare the block from the
current state, increment `number` (a `u64`) by one, and return `Some block`.
The returned pair is (emitted item, updated state). -/
def ChainGenerator.next (g : ChainGenerator) : Option Block × ChainGenerator :=
  (some g.prepare_block, { g with number := (g.number + 1) % U64size })

/-- Modelled from the spec: the finalizer (`complete.rs` is not under
verification) tracks, in call order, the hash last committed, i.e. the correct
`parent_hash` for the next completed block; fresh (zero state) it holds the
zero/default hash. -/
structure BlockFinalizer where
  parent_hash : Nat
deriving Repr, DecidableEq

/-- Modelled from the spec: a freshly created finalizer has zero state. -/
def BlockFinalizer.default : BlockFinalizer :=
  { parent_hash := 0 }

/-- Modelled from the spec: a finalizer may be duplicated ("forked") so each
branch advances its own copy independently from that point forward. -/
def BlockFinalizer.fork (f : BlockFinalizer) : BlockFinalizer := f

/-- Injective encoding of a transaction list into `Nat`, used by the hash
model. -/
def encodeTxs : List Nat → Nat
  | [] => 0
  | t :: ts => Nat.pair t (encodeTxs ts) + 1

/-- Encoding of the optional bloom value into `Nat`, used by the hash model. -/
def encodeBloom : Option Nat → Nat
  | none => 0
  | some v => v + 1

/-- Modelled from the spec: the external content-hash function over a block's
completed header and body (delegated to a collaborator outside the sources
under verification).  Any concrete function of the whole block serves the
completion stage's contract; we take a pairing of every field, truncated to
256 bits. -/
def blockHash (b : Block) : Nat :=
  (Nat.pair b.header.number
    (Nat.pair b.header.difficulty
      (Nat.pair b.header.parent_hash
        (Nat.pair (encodeBloom b.header.bloom) (encodeTxs b.transactions))))) % U256size

/-- Modelled from the spec (§4.2): the per-block difficulty reduction applied
by the fork decorator (`fork.rs` and the `Forkable` impl are not under
verification).  The spec leaves the exact formula free, requiring only that
every fork block's difficulty be strictly lower than the canonical block of
the same number; we model a representative reduction that subtracts
`fork_number + 1`, truncated at zero since `U256` is unsigned. -/
def forkDifficulty (difficulty fork_number : Nat) : Nat :=
  difficulty - (fork_number + 1)

/-- Modelled from the spec: the fork decorator's per-block transformation —
difficulty lowered, everything else (in particular the block number)
preserved. -/
def forkBlock (b : Block) (fork_number : Nat) : Block :=
  { b with header := { b.header with
      difficulty := forkDifficulty b.header.difficulty fork_number } }

/-- Modelled from the spec (§4.3): the bloom decorator sets the block's bloom
field to the fixed caller-supplied value, unconditionally overwriting any
prior value, passing everything else through untouched. -/
def setBloom (b : Block) (v : Nat) : Block :=
  { b with header := { b.header with bloom := some v } }

/-- Modelled from the spec (§4.4): the transaction decorator appends one
caller-supplied signed transaction to the block's transaction list
(non-destructive append), passing everything else through untouched. -/
def appendTx (b : Block) (t : Nat) : Block :=
  { b with transactions := b.transactions ++ [t] }

/-- The closed universe of pipeline producers: the base generator wrapped by
any number of decorators in any order (spec §2: composition is the only way
features combine).  `fork` holds the cloned inner producer together with the
`fork_number` (source: `Fork { iter: self.clone(), fork_number }`); `bloom`
and `txn` hold the wrapped producer with the fixed decoration value (source:
`Bloom { iter: self, bloom }`, `Transaction { iter: self, transaction }`);
`take` is the standard bounding adapter used by the tests
(`generator.take(1000)`). -/
inductive Producer where
  | gen : ChainGenerator → Producer
  | fork : Producer → Nat → Producer
  | bloom : Producer → Nat → Producer
  | txn : Producer → Nat → Producer
  | take : Producer → Nat → Producer
deriving Repr, DecidableEq

/-- One pull from a pipeline producer: the emitted raw block (or `none` on
exhaustion) and the producer's updated position state.  The base generator
case is the source's `Iterator::next`; the decorator cases are modelled from
the spec (each stage pulls the next block from the wrapped producer and
applies its one transformation, buffering nothing). -/
def Producer.next : Producer → Option Block × Producer
  | .gen g =>
      let r := g.next
      (r.1, .gen r.2)
  | .fork p n =>
      let r := p.next
      (r.1.map (forkBlock · n), .fork r.2 n)
  | .bloom p v =>
      let r := p.next
      (r.1.map (setBloom · v), .bloom r.2 v)
  | .txn p t =>
      let r := p.next
      (r.1.map (appendTx · t), .txn r.2 t)
  | .take p 0 => (none, .take p 0)
  | .take p (m + 1) =>
      let r := p.next
      (r.1, .take r.2 m)

/-- The completion stage (source: `Complete { iter, finalizer }`): a wrapped
producer paired with the finalizer it borrows. -/
structure CompleteStage where
  iter : Producer
  finalizer : BlockFinalizer
deriving Repr, DecidableEq

/-- Modelled from the spec (§4.5): one pull from the completion stage — pull
the next raw block from the wrapped producer (propagating exhaustion), assign
it the parent hash the finalizer tracks, compute the now-complete block's
content hash and commit it into the finalizer so the next call sees it as the
new parent, and return the finalized block (standing for its canonical byte
encoding, which is injective and read back by `BlockView`). -/
def CompleteStage.step (c : CompleteStage) : Option Block × CompleteStage :=
  match c.iter.next with
  | (none, p') => (none, { iter := p', finalizer := c.finalizer })
  | (some b, p') =>
      let cb : Block :=
        { b with header := { b.header with parent_hash := c.finalizer.parent_hash } }
      (some cb, { iter := p', finalizer := { parent_hash := blockHash cb } })

/-- Source `ChainIterator::complete`: construct the completion stage over a
producer and a borrowed finalizer. -/
def ChainIterator.complete (p : Producer) (f : BlockFinalizer) : CompleteStage :=
  { iter := p, finalizer := f }

/-- Source `ChainIterator::fork`: clone the producer and pair it with the
fork number. -/
def ChainIterator.fork (p : Producer) (fork_number : Nat) : Producer :=
  .fork p fork_number

/-- Source `ChainIterator::with_bloom`: wrap the producer with the fixed
bloom value. -/
def ChainIterator.with_bloom (p : Producer) (v : Nat) : Producer :=
  .bloom p v

/-- Source `ChainIterator::with_transaction`: wrap the producer with the fixed
transaction value. -/
def ChainIterator.with_transaction (p : Producer) (t : Nat) : Producer :=
  .txn p t

/-- Source `ChainIterator::generate`: `self.complete(finalizer).next()` — the
completed block (or `none`), together with the updated producer and finalizer
state the Rust mutable borrows leave behind. -/
def ChainIterator.generate (p : Producer) (f : BlockFinalizer) :
    Option Block × CompleteStage :=
  (ChainIterator.complete p f).step

/-- The spec's description of `generate` (§4.6), stated in its own words for
the refinement comparison: construct a Complete stage over that producer and
finalizer and pull exactly one element from it. -/
def generateSpec (p : Producer) (f : BlockFinalizer) :
    Option Block × CompleteStage :=
  CompleteStage.step { iter := p, finalizer := f }

/-- The block number the producer will stamp on its next emitted block: the
underlying base generator's `number` state, which every decorator passes
through unchanged. -/
def Producer.genNumber : Producer → Nat
  | .gen g => g.number
  | .fork p _ => p.genNumber
  | .bloom p _ => p.genNumber
  | .txn p _ => p.genNumber
  | .take p _ => p.genNumber

/-- The difficulty the producer will stamp on its next emitted block: the base
generator's fixed `difficulty`, reduced once per enclosing fork decorator. -/
def Producer.emitDiff : Producer → Nat
  | .gen g => g.difficulty
  | .fork p n => forkDifficulty p.emitDiff n
  | .bloom p _ => p.emitDiff
  | .txn p _ => p.emitDiff
  | .take p _ => p.emitDiff

/-- Emission characterization: whenever a pipeline producer emits a block, the
block carries the producer's current `genNumber` and `emitDiff`, and the
updated producer's `genNumber` advanced by one (mod 2^64) while its `emitDiff`
is unchanged. -/
theorem Producer.next_some (p : Producer) : ∀ (b : Block) (p' : Producer),
    p.next = (some b, p') →
    b.header.number = p.genNumber ∧ b.header.difficulty = p.emitDiff ∧
    p'.genNumber = (p.genNumber + 1) % U64size ∧ p'.emitDiff = p.emitDiff := by
  induction p with
  | gen g =>
      intro b p' h
      simp only [Producer.next, ChainGenerator.next, Prod.mk.injEq,
        Option.some.injEq] at h
      obtain ⟨hb, hp⟩ := h
      subst hb; subst hp
      simp [ChainGenerator.prepare_block, Block.default, Producer.genNumber,
        Producer.emitDiff]
  | fork p n ih =>
      intro b p' h
      rcases hpn : p.next with ⟨ob, p2⟩
      rw [Producer.next, hpn] at h
      simp only [Prod.mk.injEq] at h
      obtain ⟨hb, hp⟩ := h
      cases ob with
      | none => simp at hb
      | some a =>
          simp at hb
          obtain ⟨h1, h2, h3, h4⟩ := ih a p2 hpn
          subst hb; subst hp
          refine ⟨h1, by simp [forkBlock, Producer.emitDiff, h2], ?_, ?_⟩
          · simpa [Producer.genNumber] using h3
          · simp [Producer.emitDiff, h4]
  | bloom p v ih =>
      intro b p' h
      rcases hpn : p.next with ⟨ob, p2⟩
      rw [Producer.next, hpn] at h
      simp only [Prod.mk.injEq] at h
      obtain ⟨hb, hp⟩ := h
      cases ob with
      | none => simp at hb
      | some a =>
          simp at hb
          obtain ⟨h1, h2, h3, h4⟩ := ih a p2 hpn
          subst hb; subst hp
          refine ⟨h1, by simp [setBloom, Producer.emitDiff, h2], ?_, ?_⟩
          · simpa [Producer.genNumber] using h3
          · simp [Producer.emitDiff, h4]
  | txn p t ih =>
      intro b p' h
      rcases hpn : p.next with ⟨ob, p2⟩
      rw [Producer.next, hpn] at h
      simp only [Prod.mk.injEq] at h
      obtain ⟨hb, hp⟩ := h
      cases ob with
      | none => simp at hb
      | some a =>
          simp at hb
          obtain ⟨h1, h2, h3, h4⟩ := ih a p2 hpn
          subst hb; subst hp
          refine ⟨h1, by simp [appendTx, Producer.emitDiff, h2], ?_, ?_⟩
          · simpa [Producer.genNumber] using h3
          · simp [Producer.emitDiff, h4]
  | take p n ih =>
      intro b p' h
      cases n with
      | zero => simp [Producer.next] at h
      | succ m =>
          rcases hpn : p.next with ⟨ob, p2⟩
          rw [Producer.next, hpn] at h
          simp only [Prod.mk.injEq] at h
          obtain ⟨hb, hp⟩ := h
          cases ob with
          | none => simp at hb
          | some a =>
              simp only [Option.some.injEq] at hb
              obtain ⟨h1, h2, h3, h4⟩ := ih a p2 hpn
              subst hb; subst hp
              exact ⟨h1, h2, by simpa [Producer.genNumber] using h3,
                by simp [Producer.emitDiff, h4]⟩

/-- State of the completion stage after a given count of pulls. -/
def CompleteStage.stepN : Nat → CompleteStage → CompleteStage
  | 0, c => c
  | k + 1, c => ((CompleteStage.stepN k c).step).2

/-- The block emitted by the completion stage's pull number `i` (0-based), or
`none` on exhaustion. -/
def completedAt (c : CompleteStage) (i : Nat) : Option Block :=
  ((CompleteStage.stepN i c).step).1

/-- Anatomy of a successful completion-stage pull: the emitted block is the
wrapped producer's raw block with the finalizer's tracked parent hash
assigned, and the finalizer afterwards holds that block's content hash. -/
theorem CompleteStage.step_some (s : CompleteStage) (b : Block)
    (h : (s.step).1 = some b) :
    ∃ rb p', s.iter.next = (some rb, p') ∧
      b = { rb with header := { rb.header with
              parent_hash := s.finalizer.parent_hash } } ∧
      (s.step).2 = { iter := p', finalizer := { parent_hash := blockHash b } } := by
  rcases hn : s.iter.next with ⟨ob, p'⟩
  cases ob with
  | none =>
      have hstep : s.step = (none, { iter := p', finalizer := s.finalizer }) := by
        simp only [CompleteStage.step, hn]
      rw [hstep] at h
      simp at h
  | some rb =>
      have hstep : s.step = (some { rb with header := { rb.header with parent_hash := s.finalizer.parent_hash } }, { iter := p', finalizer := { parent_hash := blockHash { rb with header := { rb.header with parent_hash := s.finalizer.parent_hash } } } }) := by
        simp only [CompleteStage.step, hn]
      rw [hstep] at h
      simp only [Option.some.injEq] at h
      refine ⟨rb, p', rfl, h.symm, ?_⟩
      simp only [hstep, h]

/-- Consecutive completed blocks: the later block's parent hash is the content
hash of the earlier one, and its number is the earlier one's advanced by one
(mod 2^64). -/
theorem completedAt_link (c : CompleteStage) (i : Nat) (b b' : Block)
    (h : completedAt c i = some b) (h' : completedAt c (i + 1) = some b') :
    b'.header.parent_hash = blockHash b ∧
    b'.header.number = (b.header.number + 1) % U64size := by
  obtain ⟨rb, p1, hn, hb, hs2⟩ :=
    CompleteStage.step_some (CompleteStage.stepN i c) b h
  obtain ⟨rb', p2, hn', hb', -⟩ :=
    CompleteStage.step_some (CompleteStage.stepN (i + 1) c) b' h'
  simp only [CompleteStage.stepN, hs2] at hn' hb'
  obtain ⟨hn1, hn2, hn3, hn4⟩ := Producer.next_some _ _ _ hn
  obtain ⟨hn1', hn2', hn3', hn4'⟩ := Producer.next_some _ _ _ hn'
  have hbn : b.header.number = rb.header.number := by rw [hb]
  have hbn' : b'.header.number = rb'.header.number := by rw [hb']
  refine ⟨by rw [hb'], ?_⟩
  rw [hbn', hn1', hn3, hbn, hn1]

/-- Claim C1: for any producer whose blocks B0, B1, ..., Bn are successively
pulled through the completion stage with a single finalizer, for every i > 0
the completed block Bi has parent hash equal to the hash of B(i-1) and number
equal to B0.number + i (the source arithmetic is on `u64`, so the numbers are
taken below the `u64` modulus, as the spec's overflow carve-out assumes). -/
theorem completion_linkage (p : Producer) (f : BlockFinalizer) (n : Nat)
    (B : Nat → Block)
    (hall : ∀ j, j ≤ n → completedAt { iter := p, finalizer := f } j = some (B j))
    (hnum : (B 0).header.number + n < U64size) :
    ∀ i, 0 < i → i ≤ n →
      (B i).header.parent_hash = blockHash (B (i - 1)) ∧
      (B i).header.number = (B 0).header.number + i := by
  have hnums : ∀ i, i ≤ n → (B i).header.number = (B 0).header.number + i := by
    intro i
    induction i with
    | zero => intro _; simp
    | succ k ih =>
        intro hk
        have hk' : k ≤ n := Nat.le_of_succ_le hk
        have hlink := completedAt_link { iter := p, finalizer := f } k (B k)
          (B (k + 1)) (hall k hk') (hall (k + 1) hk)
        rw [hlink.2, ih hk']
        have hlt : (B 0).header.number + k + 1 < U64size := by omega
        rw [Nat.add_assoc, Nat.mod_eq_of_lt (by omega)]
  intro i hi hin
  refine ⟨?_, hnums i hin⟩
  obtain ⟨k, rfl⟩ : ∃ k, i = k + 1 := ⟨i - 1, by omega⟩
  have hlink := completedAt_link { iter := p, finalizer := f } k (B k)
    (B (k + 1)) (hall k (by omega)) (hall (k + 1) hin)
  simpa using hlink.1

/-- The first block completed from a fresh default generator and fresh
finalizer, written out literally; used by the witness run below. -/
def wB0 : Block :=
  { header := { number := 0, difficulty := 1000, parent_hash := 0, bloom := none },
    transactions := [] }

/-- Concrete two-block run used to witness `completion_linkage`: the first two
blocks completed from a fresh default generator and fresh finalizer. -/
def wB : Nat → Block := fun i =>
  if i = 0 then wB0
  else
    { header := { number := 1, difficulty := 1000, parent_hash := blockHash wB0,
                  bloom := none },
      transactions := [] }

/-- Witness for C1 at the concrete two-block run of the default generator. -/
theorem completion_linkage_witness :
    (∀ j, j ≤ 1 →
      completedAt { iter := .gen ChainGenerator.default,
                    finalizer := BlockFinalizer.default } j = some (wB j)) ∧
    (wB 0).header.number + 1 < U64size ∧
    (∀ i, 0 < i → i ≤ 1 →
      (wB i).header.parent_hash = blockHash (wB (i - 1)) ∧
      (wB i).header.number = (wB 0).header.number + i) :=
  ⟨by decide, by decide,
    completion_linkage (.gen ChainGenerator.default) BlockFinalizer.default 1 wB
      (by decide) (by decide)⟩

/-- Claim C3: for every state of the base generator, `next` returns `Some`
block whose header number and difficulty equal the current state's and whose
other fields are type-defaults (unset parent hash, empty transactions, no
bloom), and advances the state by incrementing `number` by one (exactly so
whenever the `u64` increment does not overflow) while leaving `difficulty`
unchanged; `next` never returns `None`. -/
theorem chain_generator_next (g : ChainGenerator) :
    (g.next).1 = some { header := { number := g.number, difficulty := g.difficulty,
                                    parent_hash := 0, bloom := none },
                        transactions := [] } ∧
    ((g.next).2).difficulty = g.difficulty ∧
    (g.number + 1 < U64size →
      (g.next).2 = { number := g.number + 1, difficulty := g.difficulty }) := by
  refine ⟨rfl, rfl, fun h => ?_⟩
  simp only [ChainGenerator.next]
  congr 1
  exact Nat.mod_eq_of_lt h

/-- Witness for C3 at the default generator state. -/
theorem chain_generator_next_witness :
    (ChainGenerator.default.next).1 =
      some { header := { number := 0, difficulty := 1000, parent_hash := 0,
                         bloom := none },
             transactions := [] } ∧
    ((ChainGenerator.default.next).2).difficulty = 1000 ∧
    (ChainGenerator.default.next).2 = { number := 1, difficulty := 1000 } :=
  ⟨(chain_generator_next ChainGenerator.default).1,
   (chain_generator_next ChainGenerator.default).2.1,
   (chain_generator_next ChainGenerator.default).2.2 (by decide)⟩

/-- Claim C6: a default-constructed base generator has initial state
`number = 0` and `difficulty = 1000`, so its first produced block has number 0
and difficulty 1000. -/
theorem default_generator_initial :
    ChainGenerator.default.number = 0 ∧
    ChainGenerator.default.difficulty = 1000 ∧
    (ChainGenerator.default.next).1 =
      some { header := { number := 0, difficulty := 1000, parent_hash := 0,
                         bloom := none },
             transactions := [] } := by
  decide

/-- Claim C8: the first completed block of a freshly created base generator
paired with a freshly created (zero-state) finalizer has parent hash equal to
the zero/default 256-bit hash and number equal to 0. -/
theorem genesis_defaults :
    (completedAt { iter := .gen ChainGenerator.default,
                   finalizer := BlockFinalizer.default } 0).map
        (fun b => (b.header.parent_hash, b.header.number)) = some (0, 0) := by
  decide

/-- Position state of a pipeline producer after a given count of pulls. -/
def Producer.stepN : Nat → Producer → Producer
  | 0, p => p
  | k + 1, p => ((Producer.stepN k p).next).2

/-- The raw block a producer emits on pull number `i` (0-based). -/
def rawAt (p : Producer) (i : Nat) : Option Block :=
  ((Producer.stepN i p).next).1

/-- Advancing a fork decorator advances the cloned inner producer in
lockstep. -/
theorem Producer.stepN_fork (i : Nat) (p : Producer) (n : Nat) :
    Producer.stepN i (.fork p n) = .fork (Producer.stepN i p) n := by
  induction i with
  | zero => rfl
  | succ k ih => simp [Producer.stepN, ih, Producer.next]

/-- A fork emits exactly the clone's raw blocks, each transformed by the
fork's difficulty reduction. -/
theorem rawAt_fork (p : Producer) (n i : Nat) :
    rawAt (.fork p n) i = (rawAt p i).map (forkBlock · n) := by
  rw [rawAt, rawAt, Producer.stepN_fork]
  rcases hpn : (Producer.stepN i p).next with ⟨ob, p2⟩
  simp [Producer.next, hpn]

/-- Claim C2: every block emitted by a fork producer carries the same block
number as the same-position block of the un-forked continuation, and strictly
lower difficulty whenever that block's difficulty is nonzero (below a
difficulty of zero there is no smaller `U256` value; the default producer's
difficulty is 1000). -/
theorem fork_strictly_lower (p : Producer) (fork_number i : Nat) (c : Block)
    (hc : rawAt p i = some c) (hpos : 0 < c.header.difficulty) :
    rawAt (ChainIterator.fork p fork_number) i = some (forkBlock c fork_number) ∧
    (forkBlock c fork_number).header.number = c.header.number ∧
    (forkBlock c fork_number).header.difficulty < c.header.difficulty := by
  refine ⟨?_, rfl, ?_⟩
  · rw [ChainIterator.fork, rawAt_fork, hc]; rfl
  · show forkDifficulty c.header.difficulty fork_number < c.header.difficulty
    exact Nat.sub_lt hpos (Nat.succ_pos _)

/-- The raw block the fresh default generator emits first, used by the C2
witness. -/
def wC : Block :=
  { header := { number := 0, difficulty := 1000, parent_hash := 0, bloom := none },
    transactions := [] }

/-- Witness for C2: the fork of the fresh default generator at fork number 1,
position 0. -/
theorem fork_strictly_lower_witness :
    rawAt (.gen ChainGenerator.default) 0 = some wC ∧
    0 < wC.header.difficulty ∧
    (rawAt (ChainIterator.fork (.gen ChainGenerator.default) 1) 0 =
        some (forkBlock wC 1) ∧
      (forkBlock wC 1).header.number = wC.header.number ∧
      (forkBlock wC 1).header.difficulty < wC.header.difficulty) :=
  ⟨by decide, by decide,
    fork_strictly_lower (.gen ChainGenerator.default) 1 0 wC (by decide) (by decide)⟩

/-- Claim C4: `generate(finalizer)` returns exactly the result of constructing
a Complete stage over the producer and finalizer and pulling one element,
including `none` when the wrapped producer is exhausted. -/
theorem generate_eq_complete_next (p : Producer) (f : BlockFinalizer) :
    ChainIterator.generate p f = generateSpec p f ∧
    ChainIterator.generate p f = (ChainIterator.complete p f).step ∧
    ((p.next).1 = none → (ChainIterator.generate p f).1 = none) := by
  refine ⟨rfl, rfl, fun h => ?_⟩
  rcases hpn : p.next with ⟨ob, p2⟩
  rw [hpn] at h
  simp only at h
  subst h
  simp [ChainIterator.generate, ChainIterator.complete, CompleteStage.step, hpn]

/-- Witness for C4 at an exhausted producer (a zero-bounded generator). -/
theorem generate_eq_complete_next_witness :
    ((Producer.take (.gen ChainGenerator.default) 0).next).1 = none ∧
    (ChainIterator.generate (.take (.gen ChainGenerator.default) 0)
        BlockFinalizer.default).1 = none :=
  ⟨by decide,
    (generate_eq_complete_next (.take (.gen ChainGenerator.default) 0)
      BlockFinalizer.default).2.2 (by decide)⟩

/-- The `ChainGenerator` values obtainable through the public interface of
`generator.rs`: `Default::default()` and advancing a held value via
`Iterator::next` (the derived `Clone` copies a value without producing a new
state).  The struct's fields are private and the source declares no other
constructor. -/
inductive PubConstructible : ChainGenerator → Prop
  | base : PubConstructible ChainGenerator.default
  | step {g : ChainGenerator} : PubConstructible g → PubConstructible ((g.next).2)

/-- Counterexample to claim C7 as stated: no generator with initial number 5
and difficulty 7 can be constructed through the public interface — the only
constructor is `Default::default()` and no operation ever changes
`difficulty`, so a caller cannot supply initial values. -/
theorem no_caller_supplied_state :
    ¬ ∃ g : ChainGenerator, PubConstructible g ∧ g.number = 5 ∧ g.difficulty = 7 := by
  have hfix : ∀ g : ChainGenerator, PubConstructible g → g.difficulty = 1000 := by
    intro g hg
    induction hg with
    | base => rfl
    | step _ ih => simpa [ChainGenerator.next] using ih
  rintro ⟨g, hg, -, hd⟩
  have := hfix g hg
  omega

/-- Claim C7 amended: the base generator is obtainable through the public
interface only from default construction, so every obtainable instance keeps
the default difficulty 1000; caller-supplied initial values are not available.
-/
theorem constructible_difficulty_fixed (g : ChainGenerator)
    (h : PubConstructible g) : g.difficulty = 1000 := by
  induction h with
  | base => rfl
  | step _ ih => simpa [ChainGenerator.next] using ih

/-- Witness for the amended C7 at the default generator. -/
theorem constructible_difficulty_fixed_witness :
    PubConstructible ChainGenerator.default ∧
    ChainGenerator.default.difficulty = 1000 :=
  ⟨PubConstructible.base,
    constructible_difficulty_fixed ChainGenerator.default PubConstructible.base⟩

/-- Interleaved advancement of two producers: for each list entry, advance the
first producer (on `true`) or the second (on `false`), recording each side's
emitted blocks in order. -/
def runPair : List Bool → Producer × Producer →
    (List (Option Block) × List (Option Block)) × (Producer × Producer)
  | [], st => (([], []), st)
  | true :: rest, (p, q) =>
      let r := p.next
      let rest' := runPair rest (r.2, q)
      ((r.1 :: rest'.1.1, rest'.1.2), rest'.2)
  | false :: rest, (p, q) =>
      let r := q.next
      let rest' := runPair rest (p, r.2)
      ((rest'.1.1, r.1 :: rest'.1.2), rest'.2)

/-- Standalone advancement of one producer for a given count of pulls,
recording the emitted blocks in order. -/
def soloRun : Nat → Producer → List (Option Block) × Producer
  | 0, p => ([], p)
  | k + 1, p =>
      let r := p.next
      let rest := soloRun k r.2
      (r.1 :: rest.1, rest.2)

/-- Interleaving independence: under any interleaving, each producer of a pair
emits exactly what it emits standing alone, and ends in the same state. -/
theorem runPair_independent (choices : List Bool) :
    ∀ p q : Producer,
      (runPair choices (p, q)).1.1 = (soloRun (choices.count true) p).1 ∧
      (runPair choices (p, q)).1.2 = (soloRun (choices.count false) q).1 ∧
      (runPair choices (p, q)).2.1 = (soloRun (choices.count true) p).2 ∧
      (runPair choices (p, q)).2.2 = (soloRun (choices.count false) q).2 := by
  induction choices with
  | nil => intro p q; simp [runPair, soloRun]
  | cons c rest ih =>
      intro p q
      cases c with
      | true =>
          obtain ⟨h1, h2, h3, h4⟩ := ih (p.next).2 q
          simp [runPair, soloRun, List.count_cons, h1, h2, h3, h4]
      | false =>
          obtain ⟨h1, h2, h3, h4⟩ := ih p (q.next).2
          simp [runPair, soloRun, List.count_cons, h1, h2, h3, h4]

/-- Claim C5: creating a fork does not mutate the original producer — the pair
advanced below starts from the unchanged original and its fresh fork — and the
two position states do not alias: under every interleaving of advances, each
of the two producers emits exactly its standalone output sequence, so
advancing one never changes the next output of the other. -/
theorem fork_no_alias (p : Producer) (fork_number : Nat) (choices : List Bool) :
    (runPair choices (p, ChainIterator.fork p fork_number)).1.1 =
      (soloRun (choices.count true) p).1 ∧
    (runPair choices (p, ChainIterator.fork p fork_number)).1.2 =
      (soloRun (choices.count false) (ChainIterator.fork p fork_number)).1 ∧
    (runPair choices (p, ChainIterator.fork p fork_number)).2.1 =
      (soloRun (choices.count true) p).2 ∧
    (runPair choices (p, ChainIterator.fork p fork_number)).2.2 =
      (soloRun (choices.count false) (ChainIterator.fork p fork_number)).2 :=
  runPair_independent choices p (ChainIterator.fork p fork_number)

/-- Claim C10: the decorator constructors wrap the underlying producer by
mutable borrow, not by copy — advancing the decorated producer advances the
underlying producer's position state (first three conjuncts, for
`with_bloom`, `with_transaction` and `complete`), so after pulling one block
through a decorator over the base generator and dropping the decorator, the
next block pulled directly from the underlying generator carries the next
sequence number, never a repeat (last three conjuncts). -/
theorem decorators_borrow_mutably (p : Producer) (v t : Nat) (f : BlockFinalizer)
    (g : ChainGenerator) :
    ((ChainIterator.with_bloom p v).next).2 =
      ChainIterator.with_bloom ((p.next).2) v ∧
    ((ChainIterator.with_transaction p t).next).2 =
      ChainIterator.with_transaction ((p.next).2) t ∧
    (((ChainIterator.complete p f).step).2).iter = (p.next).2 ∧
    ((ChainIterator.generate (ChainIterator.with_bloom (.gen g) v) f).1.map
        (fun b => b.header.number)) = some g.number ∧
    ((((ChainGenerator.next g).2).next).1.map (fun b => b.header.number)) =
      some ((g.number + 1) % U64size) ∧
    (g.number + 1) % U64size ≠ g.number := by
  refine ⟨rfl, rfl, ?_, rfl, rfl, ?_⟩
  · rcases hpn : p.next with ⟨ob, p2⟩
    cases ob with
    | none => simp [ChainIterator.complete, CompleteStage.step, hpn]
    | some b => simp [ChainIterator.complete, CompleteStage.step, hpn]
  · intro h
    have h64 : U64size = 18446744073709551616 := by norm_num [U64size]
    rw [h64] at h
    omega

/-- Draining the completion stage into a list, as the test's `collect()` does;
`fuel` bounds the number of pulls attempted (any fuel at least the wrapped
`take` bound drains a bounded producer completely). -/
def collectComplete : Nat → CompleteStage → List Block
  | 0, _ => []
  | fuel + 1, c =>
      match c.step with
      | (none, _) => []
      | (some b, c') => b :: collectComplete fuel c'

/-- Closed form of the blocks completed from a bounded base generator: block
number `i` of the run started at generator state `g` and finalizer state `f`.
-/
def canonBlock : Nat → ChainGenerator → BlockFinalizer → Block
  | 0, g, f =>
      { header := { number := g.number, difficulty := g.difficulty,
                    parent_hash := f.parent_hash, bloom := none },
        transactions := [] }
  | i + 1, g, f =>
      canonBlock i ((g.next).2)
        { parent_hash := blockHash { header := { number := g.number, difficulty := g.difficulty, parent_hash := f.parent_hash, bloom := none }, transactions := [] } }

/-- One completion-stage pull over a positively bounded base generator,
written out. -/
theorem step_take_gen (g : ChainGenerator) (f : BlockFinalizer) (k : Nat) :
    CompleteStage.step { iter := .take (.gen g) (k + 1), finalizer := f } =
      (some (canonBlock 0 g f),
       { iter := .take (.gen ((g.next).2)) k,
         finalizer := { parent_hash := blockHash (canonBlock 0 g f) } }) := rfl

/-- Draining a bounded base generator yields exactly the closed-form blocks at
positions 0 up to the bound. -/
theorem collectComplete_take_gen :
    ∀ (k fuel : Nat) (g : ChainGenerator) (f : BlockFinalizer), k ≤ fuel →
      collectComplete fuel { iter := .take (.gen g) k, finalizer := f } =
        (List.range k).map (fun i => canonBlock i g f) := by
  intro k
  induction k with
  | zero =>
      intro fuel g f _
      cases fuel with
      | zero => simp [collectComplete]
      | succ m => simp [collectComplete, CompleteStage.step, Producer.next]
  | succ k ih =>
      intro fuel g f hk
      obtain ⟨m, rfl⟩ : ∃ m, fuel = m + 1 := ⟨fuel - 1, by omega⟩
      rw [collectComplete, step_take_gen]
      show canonBlock 0 g f ::
          collectComplete m
            { iter := .take (.gen ((g.next).2)) k,
              finalizer := { parent_hash := blockHash (canonBlock 0 g f) } } = _
      rw [ih m ((g.next).2) { parent_hash := blockHash (canonBlock 0 g f) }
        (by omega)]
      rw [List.range_succ_eq_map, List.map_cons, List.map_map]
      rfl

/-- The closed-form block at position `i` carries number `g.number + i`, below
the `u64` modulus. -/
theorem canonBlock_number :
    ∀ (i : Nat) (g : ChainGenerator) (f : BlockFinalizer),
      g.number + i < U64size → (canonBlock i g f).header.number = g.number + i := by
  intro i
  induction i with
  | zero => intro g f _; simp [canonBlock]
  | succ k ih =>
      intro g f h
      have h1 : ((g.next).2).number = g.number + 1 := by
        simp only [ChainGenerator.next]
        exact Nat.mod_eq_of_lt (by omega)
      rw [canonBlock, ih _ _ (by rw [h1]; omega), h1]
      omega

/-- The closed-form blocks are hash-chained: each block's parent hash is the
content hash of its predecessor. -/
theorem canonBlock_parent :
    ∀ (i : Nat) (g : ChainGenerator) (f : BlockFinalizer),
      (canonBlock (i + 1) g f).header.parent_hash = blockHash (canonBlock i g f) := by
  intro i
  induction i with
  | zero => intro g f; rfl
  | succ k ih =>
      intro g f
      exact ih ((g.next).2) { parent_hash := blockHash (canonBlock 0 g f) }

/-- Claim C9: requesting N consecutive completions from the unbounded default
base producer — taking the first N elements and completing them with one
finalizer — yields exactly N distinct results, sequentially numbered 0 to
N - 1, with valid parent-hash linkage throughout (N below the `u64` modulus,
per the spec's overflow carve-out; in particular N = 1000). -/
theorem bulk_generation (N fuel : Nat) (f : BlockFinalizer) (blocks : List Block)
    (hfuel : N ≤ fuel) (hN : N ≤ U64size)
    (hb : blocks = collectComplete fuel
      { iter := .take (.gen ChainGenerator.default) N, finalizer := f }) :
    blocks.length = N ∧
    (∀ i, i < N → (blocks.get? i).map (fun b => b.header.number) = some i) ∧
    blocks.Nodup ∧
    (∀ i, i + 1 < N →
      (blocks.get? (i + 1)).map (fun b => b.header.parent_hash) =
        (blocks.get? i).map (fun b => blockHash b)) := by
  subst hb
  rw [collectComplete_take_gen N fuel ChainGenerator.default f hfuel]
  have hget : ∀ i, i < N →
      ((List.range N).map (fun j => canonBlock j ChainGenerator.default f)).get? i =
        some (canonBlock i ChainGenerator.default f) := by
    intro i hi
    rw [List.get?_map, List.get?_range hi]
    rfl
  have hnum : ∀ i, i < N →
      (canonBlock i ChainGenerator.default f).header.number = i := by
    intro i hi
    have := canonBlock_number i ChainGenerator.default f
      (by simp [ChainGenerator.default]; omega)
    simpa [ChainGenerator.default] using this
  refine ⟨by simp, ?_, ?_, ?_⟩
  · intro i hi
    rw [hget i hi]
    simp [hnum i hi]
  · refine List.Nodup.map_on ?_ (List.nodup_range N)
    intro x hx y hy hxy
    have hx' : x < N := List.mem_range.mp hx
    have hy' : y < N := List.mem_range.mp hy
    have : (canonBlock x ChainGenerator.default f).header.number =
        (canonBlock y ChainGenerator.default f).header.number := by rw [hxy]
    rwa [hnum x hx', hnum y hy'] at this
  · intro i hi
    rw [hget (i + 1) hi, hget i (by omega)]
    simp [canonBlock_parent]

/-- The concrete 1000-block bulk run used to witness `bulk_generation` — the
`generate_1000_blocks` test's configuration. -/
def bulkW : List Block :=
  collectComplete 1000
    { iter := .take (.gen ChainGenerator.default) 1000,
      finalizer := BlockFinalizer.default }

/-- Witness for C9 at N = 1000 with fuel 1000 and the fresh finalizer, the
configuration of the `generate_1000_blocks` test. -/
theorem bulk_generation_witness :
    (1000 : Nat) ≤ 1000 ∧ (1000 : Nat) ≤ U64size ∧
    (bulkW.length = 1000 ∧
      (∀ i, i < 1000 → (bulkW.get? i).map (fun b => b.header.number) = some i) ∧
      bulkW.Nodup ∧
      (∀ i, i + 1 < 1000 →
        (bulkW.get? (i + 1)).map (fun b => b.header.parent_hash) =
          (bulkW.get? i).map (fun b => blockHash b))) :=
  ⟨by decide, by decide,
    bulk_generation 1000 1000 BlockFinalizer.default bulkW (by decide) (by decide)
      rfl⟩
